import Mathlib

/-!
Shallow embedding of `src/subtle.rs` (constant-time utility functions of
curve25519-dalek).

Machine integers are modelled as natural numbers holding the 8-bit pattern:
a `u8` is a `Nat` below 256, and an `i8` is represented by its
two's-complement bit pattern, also a `Nat` below 256 (the value is negative
iff bit 7 is set).  Bitwise operations (`^^^`, `&&&`, `|||`, `>>>`) act on
patterns exactly as on the machine; wrapping arithmetic is made explicit
with `% 256`.  Theorems quantify inputs over `Fin 256` (respectively
`Fin 32 → Fin 256` for the 32-byte arrays), which is precisely the domain
of the Rust types.
-/

namespace Subtle

/-- Wrapping (two's-complement) negation of an 8-bit pattern: the Rust
expression `-x` at type `u8` or `i8`, i.e. `(256 - x) mod 256`. -/
def wrap_neg8 (x : Nat) : Nat := (256 - x % 256) % 256

/-- Interpretation of an 8-bit pattern as the signed value of the `i8` it
represents (two's complement: patterns 128..255 denote -128..-1). -/
def toI8 (p : Nat) : Int :=
  if p % 256 < 128 then ((p % 256 : Nat) : Int) else ((p % 256 : Nat) : Int) - 256

/-- The 8-bit pattern of an integer reduced into 8-bit range: the
two's-complement reinterpretation `z mod 256`. -/
def toU8 (z : Int) : Nat := (z % 256).toNat

/-- The test `this.is_negative() as u8` on an `i8` pattern: 1 when the sign
bit (bit 7) is set, 0 otherwise. -/
def is_negative_i8 (p : Nat) : Nat := p >>> 7

/-- `bytes_equal_ct` from `src/subtle.rs`:
`x = !(a ^ b); x &= x >> 4; x &= x >> 2; x &= x >> 1; x`.
The `u8` bitwise NOT of a pattern below 256 is XOR with `0xFF`. -/
def bytes_equal_ct (a b : Nat) : Nat :=
  let x0 : Nat := (a ^^^ b) ^^^ 255
  let x1 : Nat := x0 &&& (x0 >>> 4)
  let x2 : Nat := x1 &&& (x1 >>> 2)
  x2 &&& (x2 >>> 1)

/-- `byte_is_nonzero` from `src/subtle.rs`:
`x = b; x |= x >> 4; x |= x >> 2; x |= x >> 1; x & 1`. -/
def byte_is_nonzero (b : Nat) : Nat :=
  let x0 : Nat := b
  let x1 : Nat := x0 ||| (x0 >>> 4)
  let x2 : Nat := x1 ||| (x1 >>> 2)
  let x3 : Nat := x2 ||| (x2 >>> 1)
  x3 &&& 1

/-- `arrays_equal_ct` from `src/subtle.rs`: fold `x |= a[i] ^ b[i]` over the
fixed index range `0..32`, then return `bytes_equal_ct(x, 0)`. -/
def arrays_equal_ct (a b : Fin 32 → Nat) : Nat :=
  let x : Nat := (List.finRange 32).foldl (fun x i => x ||| (a i ^^^ b i)) 0
  bytes_equal_ct x 0

/-- `conditional_assign_u8` from `src/subtle.rs`, as a pure function
returning the new value of `*this`:
`mask = -choice; this ^= mask & (this ^ other)`. -/
def conditional_assign_u8 (this other choice : Nat) : Nat :=
  let mask : Nat := wrap_neg8 choice
  this ^^^ (mask &&& (this ^^^ other))

/-- `conditional_assign_i8` from `src/subtle.rs`, on `i8` bit patterns, as a
pure function returning the new value of `*this`:
`mask = -choice; this ^= (mask as i8) & (this ^ other)`.
The cast `mask as i8` preserves the bit pattern, and `^` and `&` on `i8`
act on the patterns exactly as on `u8`. -/
def conditional_assign_i8 (this other choice : Nat) : Nat :=
  let mask : Nat := wrap_neg8 choice
  this ^^^ (mask &&& (this ^^^ other))

/-- `abs_i8` from `src/subtle.rs`, on `i8` bit patterns:
`mask = this.is_negative() as u8; negative = -this; absolute = *this;
conditional_assign_i8(&mut absolute, &negative, &(-mask)); absolute as u8`.
The final cast `as u8` preserves the bit pattern. -/
def abs_i8 (this : Nat) : Nat :=
  let mask : Nat := is_negative_i8 this
  let negative : Nat := wrap_neg8 this
  let absolute : Nat := this
  conditional_assign_i8 absolute negative (wrap_neg8 mask)

/-- The blanket `impl<T> CTNegatable for T where T: CTAssignable, &T: Neg`:
`conditional_negate(self, choice)` computes `self_neg = -self`
unconditionally and then calls `self.conditional_assign(&self_neg, choice)`.
The trait methods come in as explicit arguments: `neg` is the `Neg` impl of
`T` and `assign` the `CTAssignable::conditional_assign` impl. -/
def conditional_negate {T : Type} (neg : T → T) (assign : T → T → Nat → T)
    (x : T) (choice : Nat) : T :=
  let self_neg : T := neg x
  assign x self_neg choice

/-- Instrumented `arrays_equal_ct`: alongside the result it records the
sequence of loop indices executed (the loop body reads `a[i]` and `b[i]` at
iteration `i`), so the recorded list is the memory-access schedule and its
length is the number of loop iterations. -/
def arrays_equal_ct_trace (a b : Fin 32 → Nat) : Nat × List (Fin 32) :=
  let p : Nat × List (Fin 32) :=
    (List.finRange 32).foldl (fun p i => (p.1 ||| (a i ^^^ b i), p.2 ++ [i])) (0, [])
  (bytes_equal_ct p.1 0, p.2)

/-- The `CTAssignable` impl for `u8`, packaged on `Fin 256` (the `u8`
domain) so it can instantiate the blanket `CTNegatable` impl: the closure
proof shows the result of `conditional_assign_u8` is again an 8-bit value. -/
def u8_assign (a b : Fin 256) (choice : Nat) : Fin 256 :=
  ⟨conditional_assign_u8 a.val b.val choice, by
    have h1 : wrap_neg8 choice < 256 := by
      unfold wrap_neg8; exact Nat.mod_lt _ (by norm_num)
    have h2 : wrap_neg8 choice &&& (a.val ^^^ b.val) < 256 :=
      lt_of_le_of_lt Nat.and_le_left h1
    have h3 : a.val ^^^ (wrap_neg8 choice &&& (a.val ^^^ b.val)) < 2 ^ 8 :=
      Nat.xor_lt_two_pow (lt_of_lt_of_le a.isLt (by norm_num))
        (lt_of_lt_of_le h2 (by norm_num))
    simpa [conditional_assign_u8] using h3⟩

/-- Wrapping negation on `u8`, packaged on `Fin 256`: the `Neg`-style
operation used to instantiate the blanket `CTNegatable` impl. -/
def u8_neg (a : Fin 256) : Fin 256 :=
  ⟨wrap_neg8 a.val, by unfold wrap_neg8; exact Nat.mod_lt _ (by norm_num)⟩

set_option maxRecDepth 100000

/-! Helper lemmas. -/

theorem or_eq_zero_iff (a b : Nat) : a ||| b = 0 ↔ a = 0 ∧ b = 0 := by
  constructor
  · intro h
    have hbit : ∀ i, a.testBit i = false ∧ b.testBit i = false := by
      intro i
      have hc := congrArg (fun n => Nat.testBit n i) h
      simpa [Nat.testBit_or, Nat.zero_testBit] using hc
    constructor
    · exact Nat.eq_of_testBit_eq fun i => by simp [(hbit i).1, Nat.zero_testBit]
    · exact Nat.eq_of_testBit_eq fun i => by simp [(hbit i).2, Nat.zero_testBit]
  · rintro ⟨rfl, rfl⟩; rfl

theorem foldl_or_eq_zero_iff {α : Type} (f : α → Nat) :
    ∀ (l : List α) (x0 : Nat),
      l.foldl (fun x i => x ||| f i) x0 = 0 ↔ (x0 = 0 ∧ ∀ i ∈ l, f i = 0) := by
  intro l
  induction l with
  | nil => intro x0; simp
  | cons a l ih =>
    intro x0
    simp only [List.foldl_cons, ih, or_eq_zero_iff, List.mem_cons]
    constructor
    · rintro ⟨⟨h0, hfa⟩, hl⟩
      exact ⟨h0, fun i hi => hi.elim (fun h => h ▸ hfa) (hl i)⟩
    · rintro ⟨h0, h⟩
      exact ⟨⟨h0, h a (Or.inl rfl)⟩, fun i hi => h i (Or.inr hi)⟩

theorem foldl_or_lt {α : Type} (f : α → Nat) :
    ∀ (l : List α) (x0 : Nat), x0 < 256 → (∀ i ∈ l, f i < 256) →
      l.foldl (fun x i => x ||| f i) x0 < 256 := by
  intro l
  induction l with
  | nil => intro x0 h0 _; simpa using h0
  | cons a l ih =>
    intro x0 h0 hf
    simp only [List.foldl_cons]
    apply ih
    · have ha : f a < 256 := hf a (List.mem_cons_self a l)
      have h : x0 ||| f a < 2 ^ 8 :=
        Nat.or_lt_two_pow (lt_of_lt_of_le h0 (by norm_num))
          (lt_of_lt_of_le ha (by norm_num))
      simpa using h
    · intro i hi; exact hf i (List.mem_cons_of_mem a hi)

theorem foldl_trace {α : Type} (f : α → Nat) :
    ∀ (l : List α) (x0 : Nat) (acc : List α),
      l.foldl (fun p i => (p.1 ||| f i, p.2 ++ [i])) (x0, acc) =
        (l.foldl (fun x i => x ||| f i) x0, acc ++ l) := by
  intro l
  induction l with
  | nil => intro x0 acc; simp
  | cons a l ih =>
    intro x0 acc
    simp [List.foldl_cons, ih, List.append_assoc]

theorem bytes_equal_ct_xor (a b : Nat) :
    bytes_equal_ct a b = bytes_equal_ct (a ^^^ b) 0 := by
  simp [bytes_equal_ct, Nat.xor_zero]

theorem bytes_equal_ct_zero_eval :
    ∀ x : Fin 256, bytes_equal_ct x.val 0 = if x.val = 0 then 1 else 0 := by
  decide

theorem xor_lt_256 {a b : Nat} (ha : a < 256) (hb : b < 256) : a ^^^ b < 256 := by
  have h : a ^^^ b < 2 ^ 8 :=
    Nat.xor_lt_two_pow (lt_of_lt_of_le ha (by norm_num))
      (lt_of_lt_of_le hb (by norm_num))
  simpa using h

theorem and_255_eq {x : Nat} (hx : x < 256) : 255 &&& x = x := by
  rw [Nat.and_comm]
  have h := Nat.and_pow_two_sub_one_eq_mod x 8
  norm_num at h
  rw [h, Nat.mod_eq_of_lt hx]

theorem conditional_assign_u8_one {t o : Nat} (ht : t < 256) (ho : o < 256) :
    conditional_assign_u8 t o 1 = o := by
  have hmask : wrap_neg8 1 = 255 := by decide
  have hx : t ^^^ o < 256 := xor_lt_256 ht ho
  show t ^^^ (wrap_neg8 1 &&& (t ^^^ o)) = o
  rw [hmask, and_255_eq hx, ← Nat.xor_assoc, Nat.xor_self, Nat.zero_xor]

theorem conditional_assign_u8_zero (t o : Nat) : conditional_assign_u8 t o 0 = t := by
  have hmask : wrap_neg8 0 = 0 := by decide
  show t ^^^ (wrap_neg8 0 &&& (t ^^^ o)) = t
  rw [hmask, Nat.zero_and, Nat.xor_zero]

theorem conditional_assign_i8_eq_u8 (t o c : Nat) :
    conditional_assign_i8 t o c = conditional_assign_u8 t o c := rfl

theorem u8_assign_one (a b : Fin 256) : u8_assign a b 1 = b := by
  apply Fin.ext
  exact conditional_assign_u8_one a.isLt b.isLt

theorem u8_assign_zero (a b : Fin 256) : u8_assign a b 0 = a := by
  apply Fin.ext
  exact conditional_assign_u8_zero a.val b.val

theorem conditional_assign_u8_lt {t o : Nat} (ht : t < 256) (c : Nat) :
    conditional_assign_u8 t o c < 256 := by
  have h1 : wrap_neg8 c < 256 := by
    unfold wrap_neg8; exact Nat.mod_lt _ (by norm_num)
  have h2 : wrap_neg8 c &&& (t ^^^ o) < 256 := lt_of_le_of_lt Nat.and_le_left h1
  exact xor_lt_256 ht h2

theorem bytes_equal_ct_lt {a b : Nat} (ha : a < 256) (hb : b < 256) :
    bytes_equal_ct a b < 256 := by
  have h0 : (a ^^^ b) ^^^ 255 < 256 := xor_lt_256 (xor_lt_256 ha hb) (by norm_num)
  calc bytes_equal_ct a b
      ≤ (a ^^^ b) ^^^ 255 :=
        le_trans Nat.and_le_left (le_trans Nat.and_le_left Nat.and_le_left)
    _ < 256 := h0

/-! Claim theorems. -/

/-- C1: the spec claims `abs_i8(v)` equals the absolute value of `v` for
every `i8` value `v`, with `abs_i8(-5) == 5` as a concrete case.  The code
contradicts this (and its own doc comment): at `v = -5` (pattern 251) it
returns 251, not 5, because the sign mask is negated a second time inside
`conditional_assign_i8`, turning it into `0x01` and disabling the
assignment. -/
theorem abs_i8_minus_five_counterexample :
    toU8 (-5) = 251 ∧ abs_i8 251 = 251 ∧ Int.natAbs (-5) = 5 ∧
      abs_i8 (toU8 (-5)) ≠ Int.natAbs (-5) := by
  decide

/-- C2: for every `i8` pattern `v`, `abs_i8 v` returns the pattern itself,
i.e. the two's-complement reinterpretation `v mod 256` of the signed value.
Moreover the double-negated choice `0xFF` yields the inner mask `0x01`, and
bit 0 of `v XOR (-v)` is always 0, so the conditional assignment never
changes the copy of `v`. -/
theorem abs_i8_returns_two_complement_pattern :
    (∀ v : Fin 256, abs_i8 v.val = v.val ∧ (abs_i8 v.val : Int) = toI8 v.val % 256) ∧
      wrap_neg8 255 = 1 ∧
      (∀ v : Fin 256, (v.val ^^^ wrap_neg8 v.val) &&& 1 = 0) := by
  refine ⟨?_, by decide, ?_⟩ <;> decide

/-- C3: for all 8-bit `this`, `other` and `choice ∈ {0,1}`, both
`conditional_assign_u8` and `conditional_assign_i8` give back `other` when
`choice = 1` and the original `this` when `choice = 0`.  (The `other`
argument is behind an immutable reference in the source and cannot change;
the embedding returns the new `this`.) -/
theorem conditional_assign_correct :
    ∀ t o : Fin 256,
      (conditional_assign_u8 t.val o.val 1 = o.val ∧
        conditional_assign_u8 t.val o.val 0 = t.val) ∧
      (conditional_assign_i8 t.val o.val 1 = o.val ∧
        conditional_assign_i8 t.val o.val 0 = t.val) := by
  intro t o
  refine ⟨⟨conditional_assign_u8_one t.isLt o.isLt, conditional_assign_u8_zero _ _⟩, ?_, ?_⟩
  · rw [conditional_assign_i8_eq_u8]; exact conditional_assign_u8_one t.isLt o.isLt
  · rw [conditional_assign_i8_eq_u8]; exact conditional_assign_u8_zero _ _

/-- C4: for all 8-bit `a`, `b`, the full result of `bytes_equal_ct a b` is
exactly 1 when `a = b` and exactly 0 otherwise. -/
theorem bytes_equal_ct_correct :
    ∀ a b : Fin 256, bytes_equal_ct a.val b.val = if a.val = b.val then 1 else 0 := by
  intro a b
  rw [bytes_equal_ct_xor]
  have hx : a.val ^^^ b.val < 256 := xor_lt_256 a.isLt b.isLt
  have h := bytes_equal_ct_zero_eval ⟨a.val ^^^ b.val, hx⟩
  simp only at h
  rw [h]
  simp only [Nat.xor_eq_zero]

/-- C5: for all 32-byte arrays `a`, `b`, `arrays_equal_ct a b` is 1 exactly
when the arrays agree at every index, and 0 otherwise (so changing any
single byte of one of two equal arrays makes the result 0). -/
theorem arrays_equal_ct_correct :
    ∀ a b : Fin 32 → Fin 256,
      arrays_equal_ct (fun i => (a i).val) (fun i => (b i).val) =
        if (∀ i, a i = b i) then 1 else 0 := by
  intro a b
  show bytes_equal_ct
      ((List.finRange 32).foldl (fun x i => x ||| ((a i).val ^^^ (b i).val)) 0) 0 = _
  have hlt : (List.finRange 32).foldl (fun x i => x ||| ((a i).val ^^^ (b i).val)) 0 < 256 := by
    apply foldl_or_lt
    · norm_num
    · intro i _; exact xor_lt_256 (a i).isLt (b i).isLt
  have h := bytes_equal_ct_zero_eval ⟨_, hlt⟩
  simp only at h
  rw [h]
  have hiff : (List.finRange 32).foldl (fun x i => x ||| ((a i).val ^^^ (b i).val)) 0 = 0
      ↔ ∀ i, a i = b i := by
    rw [foldl_or_eq_zero_iff]
    simp [List.mem_finRange, Nat.xor_eq_zero, Fin.ext_iff]
  simp only [hiff]

/-- C6: for every 8-bit `b`, `byte_is_nonzero b` is 1 when `b` is nonzero
and 0 when `b = 0`. -/
theorem byte_is_nonzero_correct :
    ∀ b : Fin 256, byte_is_nonzero b.val = if b.val = 0 then 0 else 1 := by
  decide

/-- C7: the blanket `CTNegatable` implementation: for any type `T` whose
`conditional_assign` satisfies the conditional-assignment contract, and any
`x : T`, `conditional_negate x 1` is the negation of `x` and
`conditional_negate x 0` is `x` itself; the negation `neg x` is computed
unconditionally in both cases. -/
theorem conditional_negate_correct {T : Type} (neg : T → T)
    (assign : T → T → Nat → T)
    (h1 : ∀ a b : T, assign a b 1 = b) (h0 : ∀ a b : T, assign a b 0 = a)
    (x : T) :
    conditional_negate neg assign x 1 = neg x ∧
      conditional_negate neg assign x 0 = x :=
  ⟨h1 x (neg x), h0 x (neg x)⟩

/-- Witness for C7, on the `u8` instance at the concrete input 5: the
conditional negation of 5 with choice 1 is the wrapping negation 251, and
with choice 0 it is 5 again. -/
theorem conditional_negate_correct_witness :
    conditional_negate u8_neg u8_assign (5 : Fin 256) 1 = u8_neg (5 : Fin 256) ∧
      conditional_negate u8_neg u8_assign (5 : Fin 256) 0 = (5 : Fin 256) :=
  conditional_negate_correct u8_neg u8_assign u8_assign_one u8_assign_zero (5 : Fin 256)

/-- C8: every free function is total on its documented domain and returns a
plain 8-bit value — there is no panic or error path.  In the wrapping
semantics of the source all results are valid `u8` patterns, and in
particular `abs_i8` is defined at `-128` (pattern 128), where the wrapped
negation leaves the pattern 128, the correct unsigned result. -/
theorem free_functions_total :
    (∀ a b : Fin 256, bytes_equal_ct a.val b.val < 256) ∧
      (∀ b : Fin 256, byte_is_nonzero b.val < 256) ∧
      (∀ a b : Fin 32 → Fin 256,
        arrays_equal_ct (fun i => (a i).val) (fun i => (b i).val) < 256) ∧
      (∀ t o : Fin 256, ∀ c : Fin 2,
        conditional_assign_u8 t.val o.val c.val < 256 ∧
          conditional_assign_i8 t.val o.val c.val < 256) ∧
      (∀ v : Fin 256, abs_i8 v.val < 256) ∧
      (toU8 (-128) = 128 ∧ abs_i8 (toU8 (-128)) = 128) := by
  refine ⟨?_, by decide, ?_, ?_, by decide, by decide⟩
  · intro a b; exact bytes_equal_ct_lt a.isLt b.isLt
  · intro a b
    show bytes_equal_ct
        ((List.finRange 32).foldl (fun x i => x ||| ((a i).val ^^^ (b i).val)) 0) 0 < 256
    apply bytes_equal_ct_lt
    · apply foldl_or_lt
      · norm_num
      · intro i _; exact xor_lt_256 (a i).isLt (b i).isLt
    · norm_num
  · intro t o c
    constructor
    · exact conditional_assign_u8_lt t.isLt c.val
    · rw [conditional_assign_i8_eq_u8]; exact conditional_assign_u8_lt t.isLt c.val

/-- C9: applying `conditional_assign_u8` (resp. `conditional_assign_i8`)
with choice 0 twice leaves `this` equal to the result of applying it once,
and both equal the original value. -/
theorem conditional_assign_zero_idempotent :
    ∀ t o : Fin 256,
      (conditional_assign_u8 (conditional_assign_u8 t.val o.val 0) o.val 0 =
          conditional_assign_u8 t.val o.val 0 ∧
        conditional_assign_u8 t.val o.val 0 = t.val) ∧
      (conditional_assign_i8 (conditional_assign_i8 t.val o.val 0) o.val 0 =
          conditional_assign_i8 t.val o.val 0 ∧
        conditional_assign_i8 t.val o.val 0 = t.val) := by
  intro t o
  simp [conditional_assign_i8_eq_u8, conditional_assign_u8_zero]

/-- C10: the control flow of `arrays_equal_ct` is a fixed function of the
input type, never of the values: the loop executes exactly 32 iterations,
reading indices 0..31 in a fixed order, and the access schedule is the same
for every pair of input arrays; the instrumented function computes the same
result as `arrays_equal_ct`. -/
theorem arrays_equal_ct_fixed_control_flow :
    ∀ a b a2 b2 : Fin 32 → Nat,
      (arrays_equal_ct_trace a b).2 = List.finRange 32 ∧
      (arrays_equal_ct_trace a b).2.length = 32 ∧
      (arrays_equal_ct_trace a b).2 = (arrays_equal_ct_trace a2 b2).2 ∧
      (arrays_equal_ct_trace a b).1 = arrays_equal_ct a b := by
  intro a b a2 b2
  have ht : ∀ x y : Fin 32 → Nat, arrays_equal_ct_trace x y =
      (arrays_equal_ct x y, List.finRange 32) := by
    intro x y
    simp only [arrays_equal_ct_trace, arrays_equal_ct]
    rw [foldl_trace (fun i => x i ^^^ y i) (List.finRange 32) 0 []]
    simp
  refine ⟨?_, ?_, ?_, ?_⟩ <;> simp [ht, List.length_finRange]

end Subtle
